import Mathlib

/-!
Verification of the discrete-event simulation core described by the
specification of the solar-energy WAN scenario (src/solar-energy-wan.cc).
The scenario script configures a pre-built simulation framework; the event
queue, channel, routing, echo application and statistics collector are
modelled from the specification, while the reporting arithmetic and the
application start times are translated directly from the source file.
-/

/-- An event of the simulation queue: a scheduled time together with the
monotonic sequence counter stamped at schedule time.
Modelled from the spec: Event = \x7bscheduled_time, sequence_id, callback\x7d,
ordered by scheduled_time ascending with ties broken by sequence_id;
the callback payload is irrelevant to the ordering claims and is omitted. -/
structure Event where
  time : ℚ
  seq : ℕ
deriving DecidableEq, Repr

/-- The non-strict lexicographic key order (time, seq) used for insertion. -/
def Event.le (a b : Event) : Prop :=
  a.time < b.time ∨ (a.time = b.time ∧ a.seq ≤ b.seq)

/-- The strict lexicographic key order (time, seq). -/
def Event.lt (a b : Event) : Prop :=
  a.time < b.time ∨ (a.time = b.time ∧ a.seq < b.seq)

instance : DecidableRel Event.le := fun a b => by
  unfold Event.le; infer_instance

instance : DecidableRel Event.lt := fun a b => by
  unfold Event.lt; infer_instance

theorem eventLt_trans {a b c : Event} (h1 : Event.lt a b) (h2 : Event.lt b c) :
    Event.lt a c := by
  rcases h1 with h1 | ⟨h1t, h1s⟩ <;> rcases h2 with h2 | ⟨h2t, h2s⟩
  · exact Or.inl (h1.trans h2)
  · exact Or.inl (h2t ▸ h1)
  · exact Or.inl (h1t ▸ h2)
  · exact Or.inr ⟨h1t.trans h2t, Nat.lt_trans h1s h2s⟩

/-- Modelled from the spec: the Event Queue is an ordered min-priority
structure keyed by (time, sequence); `schedule` inserts an event stamped
with the current value of the monotonic sequence counter and increments
the counter. -/
structure EventQueue where
  events : List Event
  counter : ℕ
deriving DecidableEq, Repr

def EventQueue.empty : EventQueue := ⟨[], 0⟩

/-- Modelled from the spec: schedule(time, callback) inserts into the
ordered structure keyed by (time, sequence) and bumps the counter. -/
def EventQueue.schedule (q : EventQueue) (t : ℚ) : EventQueue :=
  { events := List.orderedInsert Event.le ⟨t, q.counter⟩ q.events
    counter := q.counter + 1 }

/-- Modelled from the spec: pop_next() removes and returns the minimal
(time, sequence) event, or nothing when the queue is empty. -/
def EventQueue.popNext (q : EventQueue) : Option (Event × EventQueue) :=
  match q.events with
  | [] => none
  | e :: rest => some (e, { events := rest, counter := q.counter })

/-- Fuel-indexed repeated pop_next, used to observe the full pop sequence. -/
def drainAux : ℕ → EventQueue → List Event
  | 0, _ => []
  | Nat.succ n, q =>
    match q.popNext with
    | none => []
    | some p => p.1 :: drainAux n p.2

/-- The sequence of events returned by successive pop_next() calls. -/
def EventQueue.drain (q : EventQueue) : List Event := drainAux q.events.length q

/-- The events that a list of schedule calls starting at counter value k
should produce: each time stamped with its schedule index. -/
def stamp : ℕ → List ℚ → List Event
  | _, [] => []
  | k, t :: ts => ⟨t, k⟩ :: stamp (k + 1) ts

/-- Perform a whole sequence of schedule calls starting from the empty queue. -/
def scheduleAll (ts : List ℚ) : EventQueue :=
  ts.foldl EventQueue.schedule EventQueue.empty

theorem drainAux_eq : ∀ (n : ℕ) (q : EventQueue), q.events.length ≤ n →
    drainAux n q = q.events := by
  intro n
  induction n with
  | zero =>
      intro q hq
      rcases q with ⟨evs, c⟩
      cases evs with
      | nil => rfl
      | cons e rest => simp at hq
  | succ n ih =>
      intro q hq
      rcases q with ⟨evs, c⟩
      cases evs with
      | nil => rfl
      | cons e rest =>
          simp only [drainAux, EventQueue.popNext]
          have : rest.length ≤ n := by
            simpa [Nat.succ_le_succ_iff] using hq
          rw [ih ⟨rest, c⟩ this]

theorem EventQueue.drain_eq (q : EventQueue) : q.drain = q.events :=
  drainAux_eq q.events.length q le_rfl

/-- Inserting an event whose sequence number exceeds every sequence number
already in a strictly sorted queue keeps the queue strictly sorted; in
particular an equal-time event lands after the older ones (FIFO). -/
theorem sorted_orderedInsert_lt (a : Event) :
    ∀ l : List Event, l.Sorted Event.lt → (∀ e ∈ l, e.seq < a.seq) →
      (List.orderedInsert Event.le a l).Sorted Event.lt := by
  intro l
  induction l with
  | nil => intro _ _; simp
  | cons b l ih =>
      intro hs hseq
      rw [List.sorted_cons] at hs
      obtain ⟨hb, hs'⟩ := hs
      by_cases h : Event.le a b
      · rw [List.orderedInsert_of_le _ _ h]
        have hab : Event.lt a b := by
          rcases h with h | ⟨ht, hl⟩
          · exact Or.inl h
          · exact absurd (Nat.lt_of_le_of_lt hl (hseq b (by simp))) (Nat.lt_irrefl _)
        rw [List.sorted_cons]
        refine ⟨?_, by rw [List.sorted_cons]; exact ⟨hb, hs'⟩⟩
        intro x hx
        rcases List.mem_cons.mp hx with rfl | hx
        · exact hab
        · exact eventLt_trans hab (hb x hx)
      · have hstep : List.orderedInsert Event.le a (b :: l) =
            b :: List.orderedInsert Event.le a l := by
          simp only [List.orderedInsert, if_neg h]
        rw [hstep, List.sorted_cons]
        constructor
        · intro x hx
          rcases (List.mem_orderedInsert _).mp hx with rfl | hx
          · unfold Event.le at h
            push_neg at h
            obtain ⟨h1, h2⟩ := h
            rcases lt_or_eq_of_le h1 with hlt | heq
            · exact Or.inl hlt
            · exact Or.inr ⟨heq, hseq b (by simp)⟩
          · exact hb x hx
        · exact ih hs' (fun e he => hseq e (by simp [he]))

theorem foldl_schedule_spec : ∀ (ts : List ℚ) (q : EventQueue),
    q.events.Sorted Event.lt → (∀ e ∈ q.events, e.seq < q.counter) →
    (ts.foldl EventQueue.schedule q).events.Sorted Event.lt ∧
    (∀ e ∈ (ts.foldl EventQueue.schedule q).events,
        e.seq < (ts.foldl EventQueue.schedule q).counter) ∧
    (ts.foldl EventQueue.schedule q).events.Perm (q.events ++ stamp q.counter ts) := by
  intro ts
  induction ts with
  | nil =>
      intro q hs hc
      exact ⟨hs, hc, by simp [stamp]⟩
  | cons t ts ih =>
      intro q hs hc
      simp only [List.foldl_cons]
      have hs' : (q.schedule t).events.Sorted Event.lt :=
        sorted_orderedInsert_lt ⟨t, q.counter⟩ q.events hs (fun e he => hc e he)
      have hc' : ∀ e ∈ (q.schedule t).events, e.seq < (q.schedule t).counter := by
        intro e he
        rcases (List.mem_orderedInsert _).mp he with rfl | he
        · exact Nat.lt_succ_self _
        · exact Nat.lt_succ_of_lt (hc e he)
      obtain ⟨h1, h2, h3⟩ := ih (q.schedule t) hs' hc'
      refine ⟨h1, h2, ?_⟩
      have hins : (q.schedule t).events.Perm (⟨t, q.counter⟩ :: q.events) :=
        List.perm_orderedInsert _ _ _
      have e1 : ((q.schedule t).events ++ stamp (q.schedule t).counter ts).Perm
          (⟨t, q.counter⟩ :: (q.events ++ stamp (q.counter + 1) ts)) :=
        hins.append_right _
      have e2 : (⟨t, q.counter⟩ :: (q.events ++ stamp (q.counter + 1) ts)).Perm
          (q.events ++ ⟨t, q.counter⟩ :: stamp (q.counter + 1) ts) :=
        List.perm_middle.symm
      have e3 : q.events ++ ⟨t, q.counter⟩ :: stamp (q.counter + 1) ts =
          q.events ++ stamp q.counter (t :: ts) := by rw [stamp]
      exact h3.trans ((e1.trans e2).trans (e3 ▸ List.Perm.refl _))

/-- C1: for every sequence of schedule calls, the stream of events returned
by successive pop_next() calls is strictly sorted by the (time, sequence)
key — scheduled times are non-decreasing, equal-time events come back in
schedule order (FIFO tie-break by the monotonic sequence counter) — and it
is a permutation of the scheduled events, each stamped with its schedule
index; a driver loop dispatching from this queue therefore sees
monotonically non-decreasing event times. -/
theorem c1_pop_order (ts : List ℚ) :
    (scheduleAll ts).drain.Sorted Event.lt ∧
    (scheduleAll ts).drain.Perm (stamp 0 ts) := by
  have h := foldl_schedule_spec ts EventQueue.empty
    (by simp [EventQueue.empty]) (by simp [EventQueue.empty])
  rw [scheduleAll, EventQueue.drain_eq]
  exact ⟨h.1, by simpa [EventQueue.empty] using h.2.2⟩

/-- Modelled from the spec: Packet = \x7bpayload_size, source/destination
addresses, sequence_number\x7d; payload content is never interpreted beyond
its byte size, so the payload itself is omitted. -/
structure Packet where
  size : ℕ
  src : ℕ
  dst : ℕ
  seqNum : ℕ
deriving DecidableEq, Repr

/-- Modelled from the spec: serialization_delay = size_in_bits / data_rate;
packet sizes are given in bytes (8 bits per byte), data_rate in bits per
second. -/
def serializationDelay (sizeBytes : ℕ) (dataRate : ℚ) : ℚ :=
  (sizeBytes * 8 : ℚ) / dataRate

/-- Modelled from the spec: a point-to-point Channel = \x7bdata_rate,
propagation_delay\x7d together with the per-direction busy state of the wire
(the time at which the wire becomes free in this direction), which enforces
the half-duplex-per-direction queuing of the spec. -/
structure Channel where
  dataRate : ℚ
  propDelay : ℚ
  freeAt : ℚ
deriving DecidableEq, Repr

/-- Modelled from the spec: transmit(Packet, from_interface) schedules the
delivery event at the peer interface. The packet waits until the wire is
free in its direction, occupies it for the serialization delay, and arrives
after the additional propagation delay. Returns the delivery time at the
peer together with the updated channel busy state. -/
def Channel.transmit (ch : Channel) (now : ℚ) (p : Packet) : ℚ × Channel :=
  let start := max now ch.freeAt
  let ser := serializationDelay p.size ch.dataRate
  (start + ser + ch.propDelay, { ch with freeAt := start + ser })

/-- C2: for every packet handed to a point-to-point channel whose wire is
free (no queuing), the delivery time at the peer interface equals the
transmission time plus serialization_delay plus propagation_delay, where
serialization_delay = packet size in bits / data_rate. -/
theorem c2_delivery_time (ch : Channel) (now : ℚ) (p : Packet)
    (h : ch.freeAt ≤ now) :
    (ch.transmit now p).1 = now + (p.size * 8 : ℚ) / ch.dataRate + ch.propDelay := by
  simp [Channel.transmit, serializationDelay, max_eq_left h]

theorem c2_delivery_time_witness :
    ((⟨10000000, 5/1000, 0⟩ : Channel).freeAt ≤ (3 : ℚ)) ∧
    ((⟨10000000, 5/1000, 0⟩ : Channel).transmit 3 ⟨128, 7, 1, 0⟩).1 =
      3 + 51024 / 10000000 := by
  refine ⟨by norm_num, ?_⟩
  rw [c2_delivery_time ⟨10000000, 5/1000, 0⟩ 3 ⟨128, 7, 1, 0⟩ (by norm_num)]
  norm_num

/-- Echo server start time, from src/solar-energy-wan.cc line 276:
serverApps.Start(Seconds(1.0)). -/
def serverStartTime : ℚ := 1

/-- School client start times, from src/solar-energy-wan.cc line 290:
schoolApp.Start(Seconds(2.0 + i * 0.3)). -/
def schoolStartTime (i : ℕ) : ℚ := 2 + i * (3 / 10)

/-- Clinic client start times, from src/solar-energy-wan.cc line 303:
clinicApp.Start(Seconds(1.5 + i * 0.2)). -/
def clinicStartTime (i : ℕ) : ℚ := 3 / 2 + i * (2 / 10)

/-- Microgrid client start times, from src/solar-energy-wan.cc line 316:
microgridApp.Start(Seconds(3.0 + i * 0.4)). -/
def microgridStartTime (i : ℕ) : ℚ := 3 + i * (4 / 10)

/-- C10: for every loop index i (hence for every configured client count),
each client application start time — schools 2.0 + 0.3 i, clinics
1.5 + 0.2 i, microgrids 3.0 + 0.4 i — is strictly greater than the echo
server start time of 1.0 s, so no client begins sending before the server
application has started. -/
theorem c10_clients_start_after_server (i : ℕ) :
    serverStartTime < schoolStartTime i ∧
    serverStartTime < clinicStartTime i ∧
    serverStartTime < microgridStartTime i := by
  have hi : (0 : ℚ) ≤ (i : ℚ) * (3 / 10) := by positivity
  have hi2 : (0 : ℚ) ≤ (i : ℚ) * (2 / 10) := by positivity
  have hi3 : (0 : ℚ) ≤ (i : ℚ) * (4 / 10) := by positivity
  unfold serverStartTime schoolStartTime clinicStartTime microgridStartTime
  refine ⟨by linarith, by linarith, by linarith⟩

/-- Nanoseconds per second; the simulator represents virtual time as an
integer count of nanoseconds, so all scenario times below are exact. -/
def nsPerSec : ℕ := 1000000000

/-- Microgrid client max packets, src/solar-energy-wan.cc line 311. -/
def microMaxPackets : ℕ := 80

/-- Microgrid client send interval (0.8 s), src line 312, in ns. -/
def microIntervalNs : ℕ := 8 * nsPerSec / 10

/-- First microgrid client start time (3.0 s at loop index 0), src line 316,
in ns. -/
def microStartNs : ℕ := 3 * nsPerSec

/-- Simulation stop time (30 s), src lines 60 and 390, in ns. -/
def stopTimeNs : ℕ := 30 * nsPerSec

/-- Serialization delay of a 128-byte packet (src line 313) on the 10 Mbps
microgrid link (src line 157): 128*8 bits / 10^7 bps = 102400 ns, exact. -/
def microSerializationNs : ℕ := 128 * 8 * nsPerSec / 10000000

/-- Propagation delay of the microgrid link (5 ms, src line 158) in ns. -/
def microPropNs : ℕ := 5 * nsPerSec / 1000

/-- Modelled from the spec: the Client sends at start_time and then every
interval until max_packets are sent or stop_time is reached; these are the
send times that actually occur. -/
def clientSendTimesNs : List ℕ :=
  ((List.range microMaxPackets).map (fun k => microStartNs + k * microIntervalNs)).filter
    (fun t => decide (t ≤ stopTimeNs))

/-- Modelled from the spec: successive transmissions on the point-to-point
channel; each packet waits for the wire to become free in its direction,
occupies it for the serialization delay and is delivered after the
propagation delay (integer-nanosecond version of Channel.transmit). -/
def transmitAllNs : List ℕ → ℕ → List ℕ
  | [], _ => []
  | t :: ts, freeAt =>
      let start := max t freeAt
      (start + microSerializationNs + microPropNs) ::
        transmitAllNs ts (start + microSerializationNs)

/-- Delivery time at the server of each packet the client sends. -/
def deliveryTimesNs : List ℕ := transmitAllNs clientSendTimesNs 0

/-- Packets transmitted in the scenario (collector tx_count). -/
def scenarioTx : ℕ := clientSendTimesNs.length

/-- (delivery, send) pairs whose delivery occurs by stop_time — an event at
exactly stop_time is still dispatched. -/
def receivedPairsNs : List (ℕ × ℕ) :=
  (deliveryTimesNs.zip clientSendTimesNs).filter (fun p => decide (p.1 ≤ stopTimeNs))

/-- Packets received in the scenario (collector rx_count). -/
def scenarioRx : ℕ := receivedPairsNs.length

/-- Sum over received packets of (receive_time - send_time), in ns. -/
def scenarioDelaySumNs : ℕ := (receivedPairsNs.map (fun p => p.1 - p.2)).sum

/-- Average one-way delay of the scenario in nanoseconds, as a rational. -/
def scenarioAvgDelayNs : ℚ := (scenarioDelaySumNs : ℚ) / (scenarioRx : ℚ)

/-- C3 counterexample: in the claimed scenario (one server, one client,
10 Mbps, 5 ms, 128-byte packets, 0.8 s interval, max_packets 80, stop 30 s,
client start 3.0 s from src line 316), the collector does not report
tx_count = 80: a client that starts at 3.0 s and sends every 0.8 s can emit
only the sends at 3.0 + 0.8 k ≤ 30, i.e. 34 packets, before the stop time. -/
theorem c3_tx_eighty_refuted : ¬ (scenarioTx = 80) := by decide

/-- C3 (amended): in that scenario the collector reports tx_count = 34 (the
sends scheduled up to the stop-time boundary), rx_count = tx_count = 34 (no
congestion at this rate), and an average one-way delay exactly equal to
serialization + propagation = (128*8/10^7) + 0.005 s = 5102400 ns; the
final conjunct restates that nanosecond value as the claimed formula in
seconds. -/
theorem c3_scenario_counts :
    scenarioTx = 34 ∧ scenarioRx = 34 ∧ scenarioAvgDelayNs = 5102400 ∧
    (5102400 : ℚ) / (nsPerSec : ℚ) = (128 * 8 : ℚ) / 10000000 + 5 / 1000 := by
  have htx : scenarioTx = 34 := by decide
  have hrx : scenarioRx = 34 := by decide
  have hsum : scenarioDelaySumNs = 173481600 := by decide
  refine ⟨htx, hrx, ?_, by norm_num [nsPerSec]⟩
  rw [scenarioAvgDelayNs, hsum, hrx]
  norm_num

/-- States of the simulation driver, from the spec:
Idle -> Running -> Stopped. -/
inductive SimStatus where
  | Idle
  | Running
  | Stopped
deriving DecidableEq, Repr

/-- Driver state: pending events, dispatched events, and the driver status. -/
structure SimState where
  queue : List Event
  dispatched : List Event
  status : SimStatus
deriving DecidableEq, Repr

/-- Modelled from the spec: run(stop_time) repeatedly pops the next event;
if its time exceeds stop_time, the loop halts, the remaining events are
discarded without being executed, and the driver enters Stopped. Executing
an event here records it in the dispatch list; callback effects are beyond
the boundary behavior this models. -/
def runLoop (stop : ℚ) : List Event → List Event → SimState
  | [], disp => ⟨[], disp, SimStatus.Stopped⟩
  | e :: rest, disp =>
      if e.time ≤ stop then runLoop stop rest (disp ++ [e])
      else ⟨[], disp, SimStatus.Stopped⟩

/-- Run the driver to completion from a pending event queue. -/
def runSim (stop : ℚ) (queue : List Event) : SimState := runLoop stop queue []

theorem eventLt_time_le {a b : Event} (h : Event.lt a b) : a.time ≤ b.time := by
  rcases h with h | ⟨h, _⟩
  · exact le_of_lt h
  · exact le_of_eq h

theorem runLoop_spec (stop : ℚ) : ∀ (queue disp : List Event),
    queue.Sorted Event.lt →
    runLoop stop queue disp =
      ⟨[], disp ++ queue.filter (fun e => decide (e.time ≤ stop)), SimStatus.Stopped⟩ := by
  intro queue
  induction queue with
  | nil => intro disp _; simp [runLoop]
  | cons e rest ih =>
      intro disp hs
      rw [List.sorted_cons] at hs
      obtain ⟨he, hs'⟩ := hs
      by_cases h : e.time ≤ stop
      · rw [runLoop, if_pos h, ih (disp ++ [e]) hs',
          List.filter_cons_of_pos (by simpa using h), List.append_assoc]
        rfl
      · rw [runLoop, if_neg h]
        have hrest : rest.filter (fun f => decide (f.time ≤ stop)) = [] := by
          rw [List.filter_eq_nil_iff]
          intro f hf
          have : e.time ≤ f.time := eventLt_time_le (he f hf)
          simp only [decide_eq_true_eq]
          intro hcon
          exact h (le_trans this hcon)
        rw [List.filter_cons_of_neg (by simpa using h), hrest]
        simp

/-- C4: when run(stop_time) executes on a time-ordered queue, every event
whose scheduled time is at most stop_time — in particular one exactly equal
to stop_time — is dispatched, every event whose scheduled time strictly
exceeds stop_time is discarded without being executed, and the driver ends
in the Stopped state. -/
theorem c4_stop_boundary (stop : ℚ) (queue : List Event)
    (h : queue.Sorted Event.lt) :
    (runSim stop queue).dispatched = queue.filter (fun e => decide (e.time ≤ stop)) ∧
    (runSim stop queue).status = SimStatus.Stopped ∧
    (∀ e ∈ queue, e.time ≤ stop → e ∈ (runSim stop queue).dispatched) ∧
    (∀ e ∈ queue, stop < e.time → e ∉ (runSim stop queue).dispatched) := by
  have hrun := runLoop_spec stop queue [] h
  rw [runSim, hrun]
  refine ⟨by simp, rfl, ?_, ?_⟩
  · intro e he het
    simp [List.mem_filter, he, het]
  · intro e _ het hmem
    simp only [List.nil_append, List.mem_filter, decide_eq_true_eq] at hmem
    exact absurd hmem.2 (not_le.mpr het)

theorem c4_stop_boundary_witness :
    ([⟨29, 0⟩, ⟨30, 1⟩, ⟨31, 2⟩] : List Event).Sorted Event.lt ∧
    (runSim 30 [⟨29, 0⟩, ⟨30, 1⟩, ⟨31, 2⟩]).dispatched = [⟨29, 0⟩, ⟨30, 1⟩] ∧
    (runSim 30 [⟨29, 0⟩, ⟨30, 1⟩, ⟨31, 2⟩]).status = SimStatus.Stopped := by
  have hs : ([⟨29, 0⟩, ⟨30, 1⟩, ⟨31, 2⟩] : List Event).Sorted Event.lt := by
    decide
  obtain ⟨h1, h2, _, _⟩ := c4_stop_boundary 30 [⟨29, 0⟩, ⟨30, 1⟩, ⟨31, 2⟩] hs
  exact ⟨hs, by rw [h1]; rfl, h2⟩

/-- State of the echo Server: packets received so far and the echoes sent
back. Modelled from the spec: the Server, on receipt of any packet,
immediately echoes an identical packet back to the sender. -/
structure ServerState where
  rxCount : ℕ
  echoes : List Packet
deriving DecidableEq, Repr

/-- Modelled from the spec: one receipt at the Server — the receive counter
is incremented and an identical packet is emitted back. -/
def serverReceive (s : ServerState) (p : Packet) : ServerState :=
  { rxCount := s.rxCount + 1, echoes := s.echoes ++ [p] }

/-- The Server processing a sequence of delivered packets in order. -/
def serverProcess (ps : List Packet) : ServerState := ps.foldl serverReceive ⟨0, []⟩

/-- Modelled from the spec: the Client with max_packets = N constructs N
packets of the configured size addressed to the server, one per interval. -/
def clientPackets (clientAddr serverAddr packetSize N : ℕ) : List Packet :=
  (List.range N).map (fun k => ⟨packetSize, clientAddr, serverAddr, k⟩)

/-- Modelled from the spec: with no packet loss, every sent packet is
delivered to the server intact (packets are delivered intact or not at
all; here, all of them). -/
def deliverNoLoss (ps : List Packet) : List Packet := ps

theorem serverProcess_foldl (ps : List Packet) : ∀ (s : ServerState),
    (ps.foldl serverReceive s).rxCount = s.rxCount + ps.length ∧
    (ps.foldl serverReceive s).echoes = s.echoes ++ ps := by
  induction ps with
  | nil => intro s; simp
  | cons p ps ih =>
      intro s
      obtain ⟨h1, h2⟩ := ih (serverReceive s p)
      refine ⟨?_, ?_⟩
      · rw [List.foldl_cons, h1]
        simp [serverReceive]
        omega
      · rw [List.foldl_cons, h2]
        simp [serverReceive]

/-- C5: for every N, a Client configured with max_packets = N whose packets
suffer no loss results in the Server receiving exactly N packets and
sending exactly N echo packets back, each echo identical to the packet
received. -/
theorem c5_echo_roundtrip (clientAddr serverAddr packetSize N : ℕ) :
    (serverProcess (deliverNoLoss (clientPackets clientAddr serverAddr packetSize N))).rxCount = N ∧
    (serverProcess (deliverNoLoss (clientPackets clientAddr serverAddr packetSize N))).echoes =
      deliverNoLoss (clientPackets clientAddr serverAddr packetSize N) ∧
    (serverProcess (deliverNoLoss (clientPackets clientAddr serverAddr packetSize N))).echoes.length = N := by
  obtain ⟨h1, h2⟩ := serverProcess_foldl
    (deliverNoLoss (clientPackets clientAddr serverAddr packetSize N)) ⟨0, []⟩
  refine ⟨?_, ?_, ?_⟩
  · rw [serverProcess, h1]
    simp [deliverNoLoss, clientPackets]
  · rw [serverProcess, h2]
    simp
  · rw [serverProcess, h2]
    simp [deliverNoLoss, clientPackets]

/-- The error raised on address reuse, from the spec error taxonomy. -/
inductive AddrError where
  | DuplicateAssignment
deriving DecidableEq, Repr

/-- A subnet address assignment (subnet_base, subnet_mask). -/
structure SubnetAddr where
  base : ℕ
  mask : ℕ
deriving DecidableEq, Repr

/-- The address table: which interface (by id) has which assigned address. -/
def lookupAddr (t : List (ℕ × SubnetAddr)) (i : ℕ) : Option SubnetAddr :=
  (t.find? (fun p => p.1 == i)).map Prod.snd

/-- Modelled from the spec: assign(InterfaceId, subnet_base, subnet_mask)
fails with DuplicateAssignment if the interface already has an address;
otherwise it records the assignment. The second component is the address
table after the call. -/
def assignAddr (t : List (ℕ × SubnetAddr)) (i base mask : ℕ) :
    Except AddrError Unit × List (ℕ × SubnetAddr) :=
  match lookupAddr t i with
  | some _ => (Except.error AddrError.DuplicateAssignment, t)
  | none => (Except.ok (), (i, ⟨base, mask⟩) :: t)

/-- C7: assign(InterfaceId, subnet_base, subnet_mask) fails with
DuplicateAssignment if and only if the interface already has an assigned
address, and on such a failure the address table — in particular the
existing address of that interface — is unchanged. -/
theorem c7_duplicate_assignment (t : List (ℕ × SubnetAddr)) (i base mask : ℕ) :
    ((assignAddr t i base mask).1 = Except.error AddrError.DuplicateAssignment ↔
      (lookupAddr t i).isSome = true) ∧
    ((assignAddr t i base mask).1 = Except.error AddrError.DuplicateAssignment →
      (assignAddr t i base mask).2 = t) := by
  cases h : lookupAddr t i <;> simp [assignAddr, h]

theorem c7_duplicate_assignment_witness :
    (assignAddr [(0, ⟨10, 255⟩)] 0 20 255).1 =
      Except.error AddrError.DuplicateAssignment ∧
    (assignAddr [(0, ⟨10, 255⟩)] 0 20 255).2 = [(0, ⟨10, 255⟩)] := by
  have he : (assignAddr [(0, ⟨10, 255⟩)] 0 20 255).1 =
      Except.error AddrError.DuplicateAssignment := rfl
  exact ⟨he, (c7_duplicate_assignment [(0, ⟨10, 255⟩)] 0 20 255).2 he⟩

/-- A per-flow record of the statistics collector, from the spec:
FlowRecord = \x7bflow_key, tx_count, rx_count, rx_bytes, delay_sum\x7d (the key
is irrelevant to the aggregation and omitted). -/
structure FlowRecord where
  txCount : ℕ
  rxCount : ℕ
  rxBytes : ℕ
  delaySum : ℚ
deriving DecidableEq, Repr

/-- The aggregate totals accumulated by the results loop of
src/solar-energy-wan.cc lines 405-422. -/
structure Aggregates where
  totalTx : ℕ
  totalRx : ℕ
  throughputKbps : ℚ
  delayTotal : ℚ
  flowCount : ℕ
deriving DecidableEq, Repr

/-- One iteration of the statistics loop, src/solar-energy-wan.cc lines
410-422: reads one FlowRecord, accumulates the totals (the per-flow mean
delay contributes only when rxPackets > 0), and re-emits the record
unchanged. -/
def queryStep (simTime : ℚ) (acc : Aggregates × List FlowRecord) (r : FlowRecord) :
    Aggregates × List FlowRecord :=
  (⟨acc.1.totalTx + r.txCount,
    acc.1.totalRx + r.rxCount,
    acc.1.throughputKbps + (r.rxBytes : ℚ) * 8 / simTime / 1000,
    if 0 < r.rxCount then acc.1.delayTotal + r.delaySum / (r.rxCount : ℚ)
      else acc.1.delayTotal,
    if 0 < r.rxCount then acc.1.flowCount + 1 else acc.1.flowCount⟩,
   acc.2 ++ [r])

/-- Querying the collector: fold the loop over every FlowRecord, returning
the aggregates together with the collector records after the query. -/
def queryStats (simTime : ℚ) (records : List FlowRecord) :
    Aggregates × List FlowRecord :=
  records.foldl (queryStep simTime) (⟨0, 0, 0, 0, 0⟩, [])

theorem queryStats_foldl (simTime : ℚ) (records : List FlowRecord) :
    ∀ (a : Aggregates) (l : List FlowRecord),
      (records.foldl (queryStep simTime) (a, l)).2 = l ++ records := by
  induction records with
  | nil => intro a l; simp
  | cons r rs ih =>
      intro a l
      rw [List.foldl_cons]
      have := ih (queryStep simTime (a, l) r).1 (queryStep simTime (a, l) r).2
      simpa [queryStep] using this

/-- C8: querying the statistics collector for the derived metrics leaves
every underlying FlowRecord counter unchanged — the collector records after
the query are exactly the records before it. -/
theorem c8_query_readonly (simTime : ℚ) (records : List FlowRecord) :
    (queryStats simTime records).2 = records := by
  rw [queryStats, queryStats_foldl]
  simp

/-- Packet loss rate in percent, src/solar-energy-wan.cc lines 429-431:
computed only under the guard totalTx > 0. -/
def lossRatePct (simTime : ℚ) (records : List FlowRecord) : Option ℚ :=
  let a := (queryStats simTime records).1
  if 0 < a.totalTx then
    some (((a.totalTx : ℚ) - (a.totalRx : ℚ)) * 100 / (a.totalTx : ℚ))
  else none

/-- Aggregate average latency in milliseconds, src lines 444-446: computed
only under the guard flowCount > 0. -/
def avgLatencyMs (simTime : ℚ) (records : List FlowRecord) : Option ℚ :=
  let a := (queryStats simTime records).1
  if 0 < a.flowCount then some (a.delayTotal / (a.flowCount : ℚ) * 1000)
  else none

/-- C9: the results report never divides by zero — the loss rate is
produced only when totalTx > 0, the aggregate average latency only when
flowCount > 0, and a flow with rxPackets = 0 contributes neither a
per-flow mean delay nor a flow count; every branch of the reporting
computation is a total function of the statistics map. -/
theorem c9_report_guards (simTime : ℚ) (records : List FlowRecord) :
    (∀ q, lossRatePct simTime records = some q →
      0 < (queryStats simTime records).1.totalTx) ∧
    (∀ q, avgLatencyMs simTime records = some q →
      0 < (queryStats simTime records).1.flowCount) ∧
    (∀ (acc : Aggregates × List FlowRecord) (r : FlowRecord), r.rxCount = 0 →
      (queryStep simTime acc r).1.delayTotal = acc.1.delayTotal ∧
      (queryStep simTime acc r).1.flowCount = acc.1.flowCount) := by
  refine ⟨?_, ?_, ?_⟩
  · intro q hq
    rw [lossRatePct] at hq
    by_cases h : 0 < (queryStats simTime records).1.totalTx
    · exact h
    · simp [h] at hq
  · intro q hq
    rw [avgLatencyMs] at hq
    by_cases h : 0 < (queryStats simTime records).1.flowCount
    · exact h
    · simp [h] at hq
  · intro acc r hr
    simp [queryStep, hr]

theorem c9_report_guards_witness :
    lossRatePct 30 [⟨5, 2, 100, 1⟩] = some 60 ∧
    0 < (queryStats 30 [⟨5, 2, 100, 1⟩]).1.totalTx ∧
    avgLatencyMs 30 [⟨5, 2, 100, 1⟩] = some 500 ∧
    0 < (queryStats 30 [⟨5, 2, 100, 1⟩]).1.flowCount ∧
    (queryStep 30 (⟨0, 0, 0, 0, 0⟩, []) ⟨7, 0, 0, 0⟩).1.delayTotal =
      (⟨0, 0, 0, 0, 0⟩ : Aggregates).delayTotal := by
  have hl : lossRatePct 30 [⟨5, 2, 100, 1⟩] = some 60 := by
    simp [lossRatePct, queryStats, queryStep]
    norm_num
  have ha : avgLatencyMs 30 [⟨5, 2, 100, 1⟩] = some 500 := by
    simp [avgLatencyMs, queryStats, queryStep]
    norm_num
  have h := c9_report_guards 30 [⟨5, 2, 100, 1⟩]
  have h3 := (c9_report_guards 30 []).2.2 (⟨0, 0, 0, 0, 0⟩, []) ⟨7, 0, 0, 0⟩ rfl
  exact ⟨hl, h.1 60 hl, ha, h.2.1 500 ha, h3.1⟩

section Routing

variable {n : ℕ}

/-- One expansion step of the global routing computation: add every node
adjacent to the set already reached. -/
def routeStep (adj : Fin n → Fin n → Bool) (S : Finset (Fin n)) : Finset (Fin n) :=
  S ∪ Finset.univ.filter (fun y => ∃ x ∈ S, adj x y = true)

/-- Modelled from the spec: compute_global_routing() runs once over the
static topology graph; the set of nodes reachable from s is obtained by
iterating the expansion step to its fixpoint (n iterations suffice on an
n-node graph). -/
def reachSet (adj : Fin n → Fin n → Bool) (s : Fin n) : Finset (Fin n) :=
  (routeStep adj)^[n] {s}

/-- One directed hop of the topology graph. -/
def adjStep (adj : Fin n → Fin n → Bool) (a b : Fin n) : Prop := adj a b = true

/-- Reachability along the topology graph. -/
def Reach (adj : Fin n → Fin n → Bool) : Fin n → Fin n → Prop :=
  Relation.ReflTransGen (adjStep adj)

theorem routeStep_subset (adj : Fin n → Fin n → Bool) (S : Finset (Fin n)) :
    S ⊆ routeStep adj S :=
  Finset.subset_union_left

theorem mem_iterate_self (adj : Fin n → Fin n → Bool) (s : Fin n) :
    ∀ k : ℕ, s ∈ (routeStep adj)^[k] {s}
  | 0 => Finset.mem_singleton_self s
  | k + 1 => by
      rw [Function.iterate_succ_apply']
      exact routeStep_subset adj _ (mem_iterate_self adj s k)

theorem iterate_reach_sound (adj : Fin n → Fin n → Bool) (s : Fin n) :
    ∀ (k : ℕ) (y : Fin n), y ∈ (routeStep adj)^[k] {s} → Reach adj s y := by
  intro k
  induction k with
  | zero =>
      intro y hy
      rw [Function.iterate_zero_apply, Finset.mem_singleton] at hy
      subst hy
      exact Relation.ReflTransGen.refl
  | succ k ih =>
      intro y hy
      rw [Function.iterate_succ_apply', routeStep] at hy
      rcases Finset.mem_union.mp hy with hy | hy
      · exact ih y hy
      · obtain ⟨x, hx, hadj⟩ := (Finset.mem_filter.mp hy).2
        exact (ih x hx).tail hadj

theorem routeStep_fixpoint_closed (adj : Fin n → Fin n → Bool) (S : Finset (Fin n))
    (hfix : routeStep adj S = S) {a b : Fin n} (hab : Reach adj a b) (ha : a ∈ S) :
    b ∈ S := by
  induction hab with
  | refl => exact ha
  | tail h1 h2 ih =>
      have hmem : _ ∈ routeStep adj S :=
        Finset.mem_union_right _ (Finset.mem_filter.mpr ⟨Finset.mem_univ _, ⟨_, ih, h2⟩⟩)
      rwa [hfix] at hmem

theorem iterate_stab {α : Type} (f : α → α) (x : α) (k : ℕ)
    (h : f^[k + 1] x = f^[k] x) :
    ∀ m : ℕ, k ≤ m → f^[m] x = f^[k] x := by
  intro m
  induction m with
  | zero =>
      intro hm
      obtain rfl := Nat.le_zero.mp hm
      rfl
  | succ m ih =>
      intro hm
      rcases Nat.lt_or_ge k (m + 1) with hlt | hge
      · have hkm : k ≤ m := Nat.lt_succ_iff.mp hlt
        have hsucc := Function.iterate_succ_apply' f k x
        rw [Function.iterate_succ_apply', ih hkm, ← hsucc, h]
      · have hk : k = m + 1 := Nat.le_antisymm hm hge
        rw [hk]

theorem iterate_card_grow (adj : Fin n → Fin n → Bool) (s : Fin n) :
    ∀ m : ℕ, (∀ k, k < m → (routeStep adj)^[k + 1] {s} ≠ (routeStep adj)^[k] {s}) →
      m + 1 ≤ ((routeStep adj)^[m] {s} : Finset (Fin n)).card := by
  intro m
  induction m with
  | zero => intro _; simp
  | succ m ih =>
      intro h
      have h1 : m + 1 ≤ ((routeStep adj)^[m] {s} : Finset (Fin n)).card :=
        ih (fun k hk => h k (Nat.lt_succ_of_lt hk))
      have hne : (routeStep adj)^[m + 1] {s} ≠ (routeStep adj)^[m] {s} :=
        h m (Nat.lt_succ_self m)
      have hsub : ((routeStep adj)^[m] {s} : Finset (Fin n)) ⊆ (routeStep adj)^[m + 1] {s} := by
        rw [Function.iterate_succ_apply']
        exact routeStep_subset adj _
      have hss : ((routeStep adj)^[m] {s} : Finset (Fin n)) ⊂ (routeStep adj)^[m + 1] {s} :=
        ⟨hsub, fun hsub2 => hne (Finset.Subset.antisymm hsub2 hsub)⟩
      have hcard := Finset.card_lt_card hss
      omega

theorem reachSet_fixpoint (adj : Fin n → Fin n → Bool) (s : Fin n) :
    routeStep adj (reachSet adj s) = reachSet adj s := by
  by_cases hex : ∃ k, k < n ∧ (routeStep adj)^[k + 1] {s} = (routeStep adj)^[k] {s}
  · obtain ⟨k, hk, hfix⟩ := hex
    have h1 : (routeStep adj)^[n] {s} = (routeStep adj)^[k] {s} :=
      iterate_stab _ _ k hfix n (le_of_lt hk)
    have hsucc := Function.iterate_succ_apply' (routeStep adj) k ({s} : Finset (Fin n))
    rw [reachSet, h1, ← hsucc]
    exact hfix
  · push_neg at hex
    have hgrow := iterate_card_grow adj s n hex
    have hle : (((routeStep adj)^[n] {s} : Finset (Fin n))).card ≤ n := by
      have h2 := Finset.card_le_univ ((routeStep adj)^[n] {s} : Finset (Fin n))
      simpa using h2
    omega

theorem mem_reachSet_iff (adj : Fin n → Fin n → Bool) (s d : Fin n) :
    d ∈ reachSet adj s ↔ Reach adj s d := by
  constructor
  · intro h
    exact iterate_reach_sound adj s n d h
  · intro h
    exact routeStep_fixpoint_closed adj _ (reachSet_fixpoint adj s) h
      (mem_iterate_self adj s n)

/-- The error raised when the destination is unreachable at resolution
time, from the spec error taxonomy. -/
inductive RouteError where
  | NoRoute
deriving DecidableEq, Repr

/-- The neighbors of s through which the destination d can be reached. -/
def nextHopList (adj : Fin n → Fin n → Bool) (d s : Fin n) : List (Fin n) :=
  (List.finRange n).filter (fun y => adj s y && decide (d ∈ reachSet adj y))

/-- Modelled from the spec: resolve(destination_address, at_node) returns a
next-hop interface from the routing tables populated by
compute_global_routing(), and fails with NoRoute if the destination is
unreachable. Which viable neighbor is chosen (the spec picks a hop-count
shortest path) is irrelevant to the resolution-success claims, so the first
viable neighbor is returned; resolution at the destination itself is the
local delivery interface. -/
def resolveRoute (adj : Fin n → Fin n → Bool) (d s : Fin n) :
    Except RouteError (Fin n) :=
  if d = s then Except.ok s
  else
    match nextHopList adj d s with
    | [] => Except.error RouteError.NoRoute
    | y :: _ => Except.ok y

/-- C6: resolve fails with NoRoute exactly when the destination is
unreachable from the resolving node; consequently after
compute_global_routing() on a connected topology graph (where Reach holds
for every ordered pair) resolve succeeds for every ordered pair of nodes,
and for a node disconnected from the rest of the graph resolve fails with
NoRoute. -/
theorem c6_resolve_iff_reachable (adj : Fin n → Fin n → Bool) (s d : Fin n) :
    (resolveRoute adj d s = Except.error RouteError.NoRoute ↔ ¬ Reach adj s d) ∧
    ((∃ y, resolveRoute adj d s = Except.ok y) ↔ Reach adj s d) := by
  have key : resolveRoute adj d s = Except.error RouteError.NoRoute ↔ ¬ Reach adj s d := by
    by_cases hd : d = s
    · subst hd
      constructor
      · intro h
        rw [resolveRoute, if_pos rfl] at h
        exact absurd h (by simp)
      · intro h
        exact (h Relation.ReflTransGen.refl).elim
    · cases hl : nextHopList adj d s with
      | nil =>
          constructor
          · intro _ h
            rcases Relation.ReflTransGen.cases_head h with heq | ⟨c, hc, hcd⟩
            · exact hd heq.symm
            · have hmem : c ∈ nextHopList adj d s := by
                refine List.mem_filter.mpr ⟨List.mem_finRange c, ?_⟩
                simp only [Bool.and_eq_true, decide_eq_true_eq]
                exact ⟨hc, (mem_reachSet_iff adj c d).mpr hcd⟩
              rw [hl] at hmem
              exact absurd hmem (List.not_mem_nil c)
          · intro _
            rw [resolveRoute, if_neg hd, hl]
      | cons y ys =>
          have hy : y ∈ nextHopList adj d s := by
            rw [hl]
            exact List.mem_cons_self y ys
          have hprop := (List.mem_filter.mp hy).2
          simp only [Bool.and_eq_true, decide_eq_true_eq] at hprop
          have hreach : Reach adj s d :=
            Relation.ReflTransGen.head hprop.1 ((mem_reachSet_iff adj y d).mp hprop.2)
          constructor
          · intro herr
            rw [resolveRoute, if_neg hd, hl] at herr
            exact absurd herr (by simp)
          · intro h
            exact (h hreach).elim
  refine ⟨key, ?_, ?_⟩
  · intro hok
    obtain ⟨y, hy⟩ := hok
    by_contra h
    have herr := key.mpr h
    rw [hy] at herr
    exact absurd herr (by simp)
  · intro h
    cases hres : resolveRoute adj d s with
    | error err =>
        cases err
        exact absurd h (key.mp hres)
    | ok y => exact ⟨y, rfl⟩

end Routing
